import Mathlib

set_option maxHeartbeats 1000000
set_option maxRecDepth 4000

/-! Verification development for the ckb-miner-opt repository.

Shallow embedding of:
  - the chain provider `Shared` (src/shared/src/shared.rs): `get_ancestor`,
    `union_proposal_ids_n`, `calculate_transaction_fee`, `calculate_difficulty`;
  - the wallet lock index `DefaultWalletStore` (src/wallet/src/store.rs):
    `attach_block`, `detach_block`, `sync_index_states`;
  - the reward finalizer `finalize_block_reward`, whose implementation is not
    among the provided sources (only its test, src/chain/src/tests/reward.rs);
    it is modelled from the specification.

Hashes (H256), lock hashes and proposal short ids are modelled as natural
numbers standing for opaque byte strings; semantic equality is byte equality,
matching the source's use of fingerprints.  u64 quantities are Nat with an
explicit modulus where Rust's wrapping behaviour matters.  Code paths that
panic in Rust (`expect`, `unwrap`, arithmetic underflow) are modelled by
returning `none`. -/

/-- Block header (src/shared/src/shared.rs `Header`).  The hash is carried as a
field; well-formedness of a store relates it to the key the header is filed
under. -/
structure Header where
  hash : Nat
  number : Nat
  parent_hash : Nat
  difficulty : Nat
deriving DecidableEq

/-- Per-block derived metadata (`BlockExt`); only the field used by
`calculate_difficulty` is modelled. -/
structure BlockExt where
  total_uncles_count : Nat
deriving DecidableEq

/-- Uncle block, reduced to the field read by `union_proposal_ids_n`
(`u.proposal_transactions`). -/
structure UncleB where
  proposal_transactions : List Nat
deriving DecidableEq

/-- Outpoint of one output of one transaction (`CellOutPoint` / `OutPoint`). -/
structure CellOutPoint where
  tx_hash : Nat
  index : Nat
deriving DecidableEq

/-- Cell output.  `lock_hash` models `output.lock.hash()`, the fingerprint of
the lock script; the source computes it by hashing, here it is carried
directly since the hash is opaque. -/
structure CellOutput where
  capacity : Nat
  lock_hash : Nat
deriving DecidableEq

/-- Transaction as read by the wallet store and the fee computation.  Inputs
are the previous outpoints (`input.previous_output`); for non-cellbase
transactions the source unwraps `previous_output.cell`, so inputs are
modelled as outpoints directly. -/
structure STransaction where
  hash : Nat
  is_cellbase : Bool
  inputs : List CellOutPoint
  outputs : List CellOutput
deriving DecidableEq

/-- Block as consumed by the wallet store (`ckb_core::block::Block`). -/
structure SBlock where
  hash : Nat
  number : Nat
  parent_hash : Nat
  transactions : List STransaction
deriving DecidableEq

/-- Read view over the chain store plus the in-memory tip, as used by the
`ChainProvider` impl in src/shared/src/shared.rs.  Each field is one accessor:
`get_header` is `store.get_header`, `block_hash` is `store.get_block_hash`
(canonical index, number to hash), `block_number` is `store.get_block_number`
(hash to canonical number), `tip` is the shared `TipHeader`'s inner header,
`block_ext`, `block_proposal_txs_ids`, `uncles` and `get_transaction` are the
corresponding store accessors. -/
structure ChainView where
  get_header : Nat → Option Header
  block_hash : Nat → Option Nat
  block_number : Nat → Option Nat
  tip : Header
  block_ext : Nat → Option BlockExt
  block_proposal_txs_ids : Nat → Option (List Nat)
  uncles : Nat → Option (List UncleB)
  get_transaction : Nat → Option STransaction

/-- `ChainProvider::block_header`: serves the in-memory tip header when the tip
hash is queried, otherwise reads the store. -/
def block_header (S : ChainView) (h : Nat) : Option Header :=
  if S.tip.hash = h then some S.tip else S.get_header h

/-- The fork-path walk inside `get_ancestor`: follow parent links `k` times,
decrementing the tracked number each step exactly as the source decrements
`n_number`. -/
def ancestor_walk (S : ChainView) : Nat → Header → Option Header
  | 0, hd => some hd
  | k + 1, hd =>
    match block_header S hd.parent_hash with
    | some hd' => ancestor_walk S k hd'
    | none => none

/-- `ChainProvider::get_ancestor` (src/shared/src/shared.rs:283).  When the
base hash is in the canonical index, a query above its number returns `none`,
a query at exactly its number returns the in-memory tip header, and a lower
query resolves through the index.  Otherwise the fork path walks parent
pointers `header.number - number` times. -/
def get_ancestor (S : ChainView) (base : Nat) (number : Nat) : Option Header :=
  match S.block_number base with
  | some n_number =>
    if number > n_number then none
    else if number = n_number then some S.tip
    else (S.block_hash number).bind (fun h => block_header S h)
  | none =>
    match block_header S base with
    | some header =>
      if number > header.number then none
      else ancestor_walk S (header.number - number) header
    | none => none

/-- One iteration of the `union_proposal_ids_n` loop: collect the block's own
proposal ids and its uncles' into a duplicate-free collection, then step to the
parent hash via `block_header(..).unwrap()`; a failing unwrap (Rust panic) is
`none`.  The source collects into a hash set, whose iteration order is
arbitrary; the model fixes the order with `List.dedup`, keeping first
occurrences. -/
def union_go (S : ChainView) : Nat → Nat → List (List Nat) → Option (List (List Nat))
  | 0, _, acc => some acc
  | m + 1, h, acc =>
    let own := (S.block_proposal_txs_ids h).getD []
    let us := (S.uncles h).getD []
    let ids := (own ++ (us.map UncleB.proposal_transactions).flatten).dedup
    match block_header S h with
    | some hd => union_go S m hd.parent_hash (acc ++ [ids])
    | none => none

/-- `ChainProvider::union_proposal_ids_n` (src/shared/src/shared.rs:318):
proposals in blocks from `bn - n` (exclusive) to `bn` (inclusive), newest
first, clipped to `bn` entries when `bn < n`; empty when the index has no hash
at `bn`. -/
def union_proposal_ids_n (S : ChainView) (bn : Nat) (n : Nat) : Option (List (List Nat)) :=
  let m := if bn > n then n else bn
  match S.block_hash bn with
  | some h => union_go S m h []
  | none => some []

/-- Error kinds surfaced by the shared provider (`SharedError`). -/
inductive SharedError where
  | invalidInput
  | invalidOutput
deriving DecidableEq

/-- Modulus of the 64-bit `Capacity` type. -/
def U64M : Nat := 2 ^ 64

/-- u64 addition with Rust release-mode wrapping semantics. -/
def u64_add (a b : Nat) : Nat := (a + b) % U64M

/-- The input loop of `calculate_transaction_fee`: accumulate the referenced
previous outputs' capacities with unchecked u64 addition, failing with
`InvalidInput` when the previous transaction is absent or the index is out of
range. -/
def fee_inputs (S : ChainView) : List CellOutPoint → Nat → Except SharedError Nat
  | [], fee => .ok fee
  | cop :: rest, fee =>
    match S.get_transaction cop.tx_hash with
    | some ptx =>
      match ptx.outputs.get? cop.index with
      | some o => fee_inputs S rest (u64_add fee o.capacity)
      | none => .error .invalidInput
    | none => .error .invalidInput

/-- `ChainProvider::calculate_transaction_fee` (src/shared/src/shared.rs:349).
The source uses plain `+=` and `sum()` on the u64 `Capacity` alias, so all
additions wrap modulo 2^64 (Rust release semantics). -/
def calculate_transaction_fee (S : ChainView) (tx : STransaction) : Except SharedError Nat :=
  match fee_inputs S tx.inputs 0 with
  | .error e => .error e
  | .ok fee =>
    let spent := tx.outputs.foldl (fun a o => u64_add a o.capacity) 0
    if spent > fee then .error .invalidOutput
    else .ok (fee - spent)

/-- Consensus parameters read by `calculate_difficulty`.
`orphan_rate_reciprocal` models the source expression
`(1.0 / self.consensus.orphan_rate_target()) as u64`, the truncated
reciprocal of the orphan rate target. -/
structure Consensus where
  difficulty_adjustment_interval : Nat
  orphan_rate_reciprocal : Nat
  min_difficulty : Nat
deriving DecidableEq

/-- `ChainProvider::calculate_difficulty` (src/shared/src/shared.rs:383).
U256 arithmetic is modelled exactly over Nat.  A zero adjustment interval
(division by zero in `%`), a missing `block_ext` (a failing `expect`) and a
u64 underflow in the uncle-count subtraction are Rust panics, modelled as
`none`. -/
def calculate_difficulty (S : ChainView) (C : Consensus) (last : Header) : Option Nat :=
  if C.difficulty_adjustment_interval = 0 then none
  else if (last.number + 1) % C.difficulty_adjustment_interval ≠ 0 then some last.difficulty
  else
    match get_ancestor S last.hash (last.number - C.difficulty_adjustment_interval) with
    | none => none
    | some start_header =>
      match S.block_ext start_header.hash, S.block_ext last.hash with
      | some se, some le =>
        if le.total_uncles_count < se.total_uncles_count then none
        else
          let d := last.difficulty * (le.total_uncles_count - se.total_uncles_count) *
            C.orphan_rate_reciprocal / C.difficulty_adjustment_interval
          if d > last.difficulty * 2 then some (last.difficulty * 2)
          else if d < C.min_difficulty then some C.min_difficulty
          else some d
      | _, _ => none

namespace Reward

/-- Modelled from the spec: a transaction as seen by reward finalization, a
short id plus a fee.  Fees are exact rationals so that the proposer ratio can
be applied exactly, as the spec directs ("treat the ratio as exact rational
arithmetic"). -/
structure RTx where
  short_id : Nat
  fee : ℚ
deriving DecidableEq

/-- Modelled from the spec: a committed block as seen by reward finalization.
`miner_lock` is the lock recorded in the cellbase witness; `proposals` is the
block's own proposal ids together with those of its uncles (the spec's
"proposals (own + uncles)"); `committed` lists the non-cellbase transactions
committed in the block. -/
structure RBlock where
  number : Nat
  miner_lock : Nat
  proposals : List Nat
  committed : List RTx
deriving DecidableEq

/-- Modelled from the spec: the proposal window of a block at number `t` with
consensus bounds `(close, far)` is the span of block numbers
`[t - far, t - close]`, searched from the earliest number. -/
def window_numbers (far close t : Nat) : List Nat :=
  List.range' (t - far) (far + 1 - close)

/-- Modelled from the spec: the proposer of a short id relative to commit
number `t` is the miner of the first (earliest-numbered) block in the proposal
window whose proposals contain the short id; ties within one block are
irrelevant because only the miner identity matters. -/
def proposer_of (chain : Nat → RBlock) (far close t id : Nat) : Option Nat :=
  ((window_numbers far close t).find? (fun n => decide (id ∈ (chain n).proposals))).map
    (fun n => (chain n).miner_lock)

/-- Modelled from the spec: `finalize_block_reward` is absent from the
provided sources (src/chain/src/tests/reward.rs only tests it).  Per spec
4.4.3, the reward for target block `t` is the base subsidy `block_reward
t.number` plus the proposer share of the fees of those transactions committed
in `t` whose proposer is `t`'s own miner; the recipient is the miner lock from
`t`'s cellbase witness.  The chain is the canonical block at each number. -/
def finalize_block_reward (chain : Nat → RBlock) (far close : Nat) (ratio : ℚ)
    (block_reward : Nat → ℚ) (t : RBlock) : Nat × ℚ :=
  (t.miner_lock,
    block_reward t.number +
      ratio * ((t.committed.filter
        (fun tx => decide (proposer_of chain far close t.number tx.short_id = some t.miner_lock))).map
          RTx.fee).sum)

end Reward

/-- Coordinate of a consuming input (`TransactionPoint`). -/
structure TransactionPoint where
  block_number : Nat
  tx_hash : Nat
  index : Nat
deriving DecidableEq

/-- Composite key of the per-lock wallet columns (`LockHashIndex`):
lock hash, block number, transaction hash, output index. -/
structure LockHashIndex where
  lock_hash : Nat
  block_number : Nat
  tx_hash : Nat
  index : Nat
deriving DecidableEq

/-- Value of the `COLUMN_CELL_OUT_POINT_LOCK_HASH` reverse mapping
(`LockHashCellOutput`): lock hash and creating block number of the output at
an outpoint, with an optional cached copy of the output itself. -/
structure LockHashCellOutput where
  lock_hash : Nat
  block_number : Nat
  cell_output : Option CellOutput
deriving DecidableEq

/-- Per-lock checkpoint (`LockHashIndexState`). -/
structure LockHashIndexState where
  block_number : Nat
  block_hash : Nat
deriving DecidableEq

/-- One write queued in a `WalletStoreBatch`; each constructor is one of the
`insert_*` / `delete_*` helpers of src/wallet/src/store.rs, writing to exactly
one of the four columns. -/
inductive BatchOp where
  | putState (lock : Nat) (v : LockHashIndexState)
  | delState (lock : Nat)
  | putLive (k : LockHashIndex) (v : CellOutput)
  | delLive (k : LockHashIndex)
  | putTx (k : LockHashIndex) (v : Option TransactionPoint)
  | delTx (k : LockHashIndex)
  | putCell (k : CellOutPoint) (v : LockHashCellOutput)
  | delCell (k : CellOutPoint)
deriving DecidableEq

/-- The four committed columns of the wallet RocksDB.  The
`COLUMN_LOCK_HASH_INDEX_STATE` column is an association list so that the set
of registered locks (its key set) is computable, as `get_lock_hash_index_states`
iterates it; the other three columns are keyed maps. -/
structure WalletState where
  index_state : List (Nat × LockHashIndexState)
  live_cell : LockHashIndex → Option CellOutput
  transaction : LockHashIndex → Option (Option TransactionPoint)
  cell_out_point_lock_hash : CellOutPoint → Option LockHashCellOutput

/-- Keyed read of the index-state column. -/
def lookupState : List (Nat × LockHashIndexState) → Nat → Option LockHashIndexState
  | [], _ => none
  | (k', v) :: rest, k => if k' = k then some v else lookupState rest k

/-- Remove any entry under key `k` (support for a keyed overwrite). -/
def eraseKeyState : List (Nat × LockHashIndexState) → Nat → List (Nat × LockHashIndexState)
  | [], _ => []
  | (k', v) :: rest, k =>
    if k' = k then eraseKeyState rest k else (k', v) :: eraseKeyState rest k

/-- Keyed overwrite of the index-state column. -/
def insertState (l : List (Nat × LockHashIndexState)) (k : Nat) (v : LockHashIndexState) :
    List (Nat × LockHashIndexState) :=
  eraseKeyState l k ++ [(k, v)]

/-- Apply one queued write to the committed state. -/
def applyOp (st : WalletState) : BatchOp → WalletState
  | .putState k v => { st with index_state := insertState st.index_state k v }
  | .delState k => { st with index_state := eraseKeyState st.index_state k }
  | .putLive k v =>
    { st with live_cell := fun k' => if k' = k then some v else st.live_cell k' }
  | .delLive k =>
    { st with live_cell := fun k' => if k' = k then none else st.live_cell k' }
  | .putTx k v =>
    { st with transaction := fun k' => if k' = k then some v else st.transaction k' }
  | .delTx k =>
    { st with transaction := fun k' => if k' = k then none else st.transaction k' }
  | .putCell k v =>
    { st with cell_out_point_lock_hash :=
        fun k' => if k' = k then some v else st.cell_out_point_lock_hash k' }
  | .delCell k =>
    { st with cell_out_point_lock_hash :=
        fun k' => if k' = k then none else st.cell_out_point_lock_hash k' }

/-- `WalletStoreBatch::commit`: apply the queued writes in order, atomically. -/
def commitBatch (st : WalletState) (ops : List BatchOp) : WalletState :=
  ops.foldl applyOp st

/-- The in-memory batch buffer of `attach_block`
(`HashMap<CellOutPoint, LockHashCellOutput>`), needed because the underlying
KV has no read-your-writes inside an uncommitted batch. -/
abbrev Buffer := List (CellOutPoint × LockHashCellOutput)

/-- Buffer lookup; insertion conses in front, so the most recent insert for a
key wins, matching `HashMap::insert` overwrite semantics. -/
def bufGet : Buffer → CellOutPoint → Option LockHashCellOutput
  | [], _ => none
  | (k', v) :: rest, k => if k' = k then some v else bufGet rest k

/-- The combined lookup of the attach-time spend path:
`batch_buffer.get(..).cloned().or_else(.. get_lock_hash_cell_output ..)` —
buffer first, then the committed column. -/
def lookupCellOutput (db : WalletState) (buf : Buffer) (cop : CellOutPoint) :
    Option LockHashCellOutput :=
  match bufGet buf cop with
  | some v => some v
  | none => db.cell_out_point_lock_hash cop

/-- The output half of `attach_block` for one output `(i, o)` of a transaction
with hash `txh` in block `bn`: when the output's lock is registered, insert
the live cell, an unspent transaction row, the reverse mapping (with no cached
output), and cache the full output in the buffer. -/
def attach_out (bn txh : Nat) (reg : List Nat) (acc : List BatchOp × Buffer)
    (p : Nat × CellOutput) : List BatchOp × Buffer :=
  if p.2.lock_hash ∈ reg then
    (acc.1 ++ [.putLive ⟨p.2.lock_hash, bn, txh, p.1⟩ p.2,
               .putTx ⟨p.2.lock_hash, bn, txh, p.1⟩ none,
               .putCell ⟨txh, p.1⟩ ⟨p.2.lock_hash, bn, none⟩],
     (⟨txh, p.1⟩, ⟨p.2.lock_hash, bn, some p.2⟩) :: acc.2)
  else acc

/-- The input half of `attach_block` for one input `(i, cop)`: look the
previous outpoint up in the buffer then the committed column; when its lock is
registered, rewrite the reverse mapping with the looked-up value, delete the
live cell at the creating coordinate, and mark the transaction row consumed. -/
def attach_in (db : WalletState) (bn txh : Nat) (reg : List Nat)
    (acc : List BatchOp × Buffer) (p : Nat × CellOutPoint) : List BatchOp × Buffer :=
  match lookupCellOutput db acc.2 p.2 with
  | some lhco =>
    if lhco.lock_hash ∈ reg then
      (acc.1 ++ [.putCell p.2 lhco,
                 .delLive ⟨lhco.lock_hash, lhco.block_number, p.2.tx_hash, p.2.index⟩,
                 .putTx ⟨lhco.lock_hash, lhco.block_number, p.2.tx_hash, p.2.index⟩
                   (some ⟨bn, txh, p.1⟩)],
       acc.2)
    else acc
  | none => acc

/-- One transaction of `attach_block`: outputs first, then (unless cellbase)
inputs. -/
def attach_tx (db : WalletState) (reg : List Nat) (bn : Nat)
    (acc : List BatchOp × Buffer) (tx : STransaction) : List BatchOp × Buffer :=
  let acc1 := tx.outputs.enum.foldl (attach_out bn tx.hash reg) acc
  if tx.is_cellbase then acc1 else tx.inputs.enum.foldl (attach_in db bn tx.hash reg) acc1

/-- `DefaultWalletStore::attach_block` (src/wallet/src/store.rs:388): queue the
index updates for one attached block.  Reads go to the committed state `db`
and the in-memory buffer, never to the uncommitted batch. -/
def attach_block (db : WalletState) (reg : List Nat) (acc : List BatchOp × Buffer)
    (b : SBlock) : List BatchOp × Buffer :=
  b.transactions.foldl (attach_tx db reg b.number) acc

/-- The input half of `detach_block` for one input `(i, cop)` of the
transaction with hash `txh` in the detached block `bn`: restore the consumed
output.  The source rebuilds the key from the detached block's number, the
consuming transaction's hash and the input index, and unwraps the cached
output with `expect("inconsistent state")`: an absent cached output is a Rust
panic, modelled as `none`. -/
def detach_in (db : WalletState) (bn txh : Nat) (reg : List Nat) (ops : List BatchOp)
    (p : Nat × CellOutPoint) : Option (List BatchOp) :=
  match db.cell_out_point_lock_hash p.2 with
  | some lhco =>
    if lhco.lock_hash ∈ reg then
      match lhco.cell_output with
      | some out =>
        some (ops ++ [.putLive ⟨lhco.lock_hash, bn, txh, p.1⟩ out,
                      .putTx ⟨lhco.lock_hash, bn, txh, p.1⟩ none,
                      .putCell p.2 ⟨lhco.lock_hash, lhco.block_number, none⟩])
      | none => none
    else some ops
  | none => some ops

/-- The output half of `detach_block` for one output `(i, o)`: delete the
live cell, transaction row and reverse mapping at the creating coordinate. -/
def detach_out (bn txh : Nat) (reg : List Nat) (ops : List BatchOp)
    (p : Nat × CellOutput) : List BatchOp :=
  if p.2.lock_hash ∈ reg then
    ops ++ [.delLive ⟨p.2.lock_hash, bn, txh, p.1⟩,
            .delTx ⟨p.2.lock_hash, bn, txh, p.1⟩,
            .delCell ⟨txh, p.1⟩]
  else ops

/-- One transaction of `detach_block`: inputs first (unless cellbase), then
outputs. -/
def detach_tx (db : WalletState) (reg : List Nat) (bn : Nat) (ops : List BatchOp)
    (tx : STransaction) : Option (List BatchOp) := do
  let ops1 ← if tx.is_cellbase then some ops
             else tx.inputs.enum.foldlM (detach_in db bn tx.hash reg) ops
  some (tx.outputs.enum.foldl (detach_out bn tx.hash reg) ops1)

/-- `DefaultWalletStore::detach_block` (src/wallet/src/store.rs:331): queue the
index updates for one detached block.  Reads go to the committed state `db`. -/
def detach_block (db : WalletState) (reg : List Nat) (ops : List BatchOp)
    (b : SBlock) : Option (List BatchOp) :=
  b.transactions.foldlM (detach_tx db reg b.number) ops

/-- Attach a list of blocks in order in a single batch with a single shared
buffer (as the update loop does for the attached span of one notification) and
commit. -/
def attach_blocks (db : WalletState) (reg : List Nat) (blocks : List SBlock) : WalletState :=
  commitBatch db (blocks.foldl (attach_block db reg) ([], [])).1

/-- Detach a list of blocks in order in a single batch and commit; the caller
passes the blocks most-recent first.  A panic inside any `detach_block` is
`none`. -/
def detach_blocks (db : WalletState) (reg : List Nat) (blocks : List SBlock) :
    Option WalletState :=
  (blocks.foldlM (detach_block db reg) []).map (commitBatch db)

/-- The chain accessors used by `sync_index_states`: `shared.block` (block by
hash), `shared.block_hash` (canonical hash by number), `shared.block_number`
(canonical number by hash), and the chain-state tip. -/
structure ChainDB where
  block_by_hash : Nat → Option SBlock
  hash_by_number : Nat → Option Nat
  number_by_hash : Nat → Option Nat
  tip_number : Nat
  tip_hash : Nat

/-- The rollback loop of `sync_index_states`: after the checkpoint block has
been detached, keep detaching parents while the parent is not the canonical
block at its number; returns the accumulated batch and the new checkpoint
`(number - 1, parent_hash)`.  `fuel` bounds the walk; exhaustion, a missing
block (`expect`) or a block numbered 0 (u64 underflow in `number - 1`) is
`none`. -/
def sync_detach_go (c : ChainDB) (db : WalletState) (reg : List Nat) :
    Nat → SBlock → List BatchOp → Option (List BatchOp × LockHashIndexState)
  | fuel, b, ops =>
    if b.number = 0 then none
    else if c.hash_by_number (b.number - 1) = some b.parent_hash then
      some (ops, ⟨b.number - 1, b.parent_hash⟩)
    else
      match fuel with
      | 0 => none
      | fuel + 1 => do
        let b' ← c.block_by_hash b.parent_hash
        let ops' ← detach_block db reg ops b'
        sync_detach_go c db reg fuel b' ops'

/-- One retained (fork) lock of `sync_index_states`: detach from the
checkpoint block back to the canonical chain and write the rolled-back
checkpoint, in one committed batch. -/
def sync_fork_one (c : ChainDB) (fuel : Nat) (db : WalletState)
    (p : Nat × LockHashIndexState) : Option WalletState := do
  let b ← c.block_by_hash p.2.block_hash
  let ops0 ← detach_block db [p.1] [] b
  let r ← sync_detach_go c db [p.1] fuel b ops0
  some (commitBatch db (r.1 ++ [.putState p.1 r.2]))

/-- The forward phase of `sync_index_states`: attach every canonical block in
`[lo, lo + n)` for all registered locks, one batch, one shared buffer; a
missing hash or block (`expect("block exists")`) is `none`. -/
def sync_attach_range (c : ChainDB) (db : WalletState) (keys : List Nat) (lo n : Nat) :
    Option (List BatchOp × Buffer) :=
  (List.range' lo n).foldlM
    (fun acc bn => do
      let h ← c.hash_by_number bn
      let b ← c.block_by_hash h
      some (attach_block db keys acc b))
    ([], [])

/-- `DefaultWalletStore::sync_index_states` (src/wallet/src/store.rs:236).
Locks whose checkpoint is not the canonical block at its number are rolled
back by detaching to the canonical chain; then every registered lock is
attached forward from the minimum checkpoint to the tip and every state row is
set to the tip.  The source iterates hash maps, whose order is arbitrary; the
model fixes the column order. -/
def sync_index_states (c : ChainDB) (fuel : Nat) (db : WalletState) : Option WalletState :=
  if db.index_state.isEmpty then some db
  else do
    let forks := db.index_state.filter
      (fun p => decide (c.number_by_hash p.2.block_hash ≠ some p.2.block_number))
    let db2 ← forks.foldlM (sync_fork_one c fuel) db
    let minBn ← (db2.index_state.map (fun p => p.2.block_number)).min?
    let keys := db2.index_state.map (fun p => p.1)
    let ar ← sync_attach_range c db2 keys (minBn + 1) (c.tip_number - minBn)
    let tipSt : LockHashIndexState := ⟨c.tip_number, c.tip_hash⟩
    some (commitBatch db2 (ar.1 ++ keys.map (fun k => BatchOp.putState k tipSt)))

/-- Reachability along parent links through `block_header` lookups: `Reach S
hd hd'` holds when `hd'` is obtained from `hd` by following zero or more
parent pointers. -/
inductive Reach (S : ChainView) : Header → Header → Prop where
  | refl (hd : Header) : Reach S hd hd
  | step {hd hd' hd'' : Header} : Reach S hd hd' →
      block_header S hd'.parent_hash = some hd'' → Reach S hd hd''

/-- Well-formedness of a chain view: stored headers are filed under their own
hash, the tip is stored, the canonical index is consistent (each indexed hash
has a header of that number, consecutive indexed blocks are linked by parent
pointers, and `block_number` inverts the index), and every stored parent link
drops the number by exactly one. -/
structure WF (S : ChainView) : Prop where
  hdr_hash : ∀ {h hd}, S.get_header h = some hd → hd.hash = h
  tip_in_store : S.get_header S.tip.hash = some S.tip
  idx_hdr : ∀ {n h}, S.block_hash n = some h → ∃ hd, S.get_header h = some hd ∧ hd.number = n
  idx_parent : ∀ {n h hd}, S.block_hash (n + 1) = some h → S.get_header h = some hd →
    S.block_hash n = some hd.parent_hash
  num_to_idx : ∀ {h n}, S.block_number h = some n → S.block_hash n = some h
  parent_number : ∀ {h hd hd'}, S.get_header h = some hd →
    S.get_header hd.parent_hash = some hd' → hd'.number + 1 = hd.number

/-! Concrete instances used by counterexamples and witnesses. -/

/-- Genesis header of the three-block example chain. -/
def hdr0 : Header := ⟨100, 0, 999, 4⟩

/-- Header of example block 1. -/
def hdr1 : Header := ⟨101, 1, 100, 4⟩

/-- Header of example block 2, the tip. -/
def hdr2 : Header := ⟨102, 2, 101, 4⟩

/-- A well-formed three-block canonical chain (hashes 100, 101, 102 at numbers
0, 1, 2) with the in-memory tip at block 2, uncle counts 0/10/10, and some
proposal ids on blocks 1 and 2. -/
def ceView : ChainView where
  get_header h :=
    if h = 100 then some hdr0 else if h = 101 then some hdr1
    else if h = 102 then some hdr2 else none
  block_hash n :=
    if n = 0 then some 100 else if n = 1 then some 101
    else if n = 2 then some 102 else none
  block_number h :=
    if h = 100 then some 0 else if h = 101 then some 1
    else if h = 102 then some 2 else none
  tip := hdr2
  block_ext h :=
    if h = 100 then some ⟨0⟩ else if h = 101 then some ⟨10⟩
    else if h = 102 then some ⟨10⟩ else none
  block_proposal_txs_ids h :=
    if h = 102 then some [5, 6, 5] else if h = 101 then some [7] else some []
  uncles h := if h = 102 then some [⟨[6, 8]⟩] else some []
  get_transaction _ := none

/-- Consensus parameters for the difficulty counterexample: interval 2,
truncated orphan-rate reciprocal 5, minimum difficulty 1. -/
def ceCons : Consensus := ⟨2, 5, 1⟩

/-- Transaction of example wallet block A: creates output 0 of capacity 1000
under lock 7. -/
def wTxA : STransaction := ⟨10, false, [], [⟨1000, 7⟩]⟩

/-- Transaction of example wallet block B: spends output (10, 0). -/
def wTxB : STransaction := ⟨20, false, [⟨10, 0⟩], []⟩

/-- Example wallet block A (number 1). -/
def blkA : SBlock := ⟨1, 1, 0, [wTxA]⟩

/-- Example wallet block B (number 2), spending A's output. -/
def blkB : SBlock := ⟨2, 2, 1, [wTxB]⟩

/-- Empty wallet store state. -/
def wdb0 : WalletState := ⟨[], fun _ => none, fun _ => none, fun _ => none⟩

/-- Example chain store for the resync example: canonical blocks with hashes
100, 101, 102 at numbers 0, 1, 2 (all with empty transaction lists) and a
fork block with hash 99 at number 2 whose parent is the canonical block 1. -/
def c6chain : ChainDB where
  block_by_hash h :=
    if h = 100 then some ⟨100, 0, 999, []⟩ else if h = 101 then some ⟨101, 1, 100, []⟩
    else if h = 102 then some ⟨102, 2, 101, []⟩ else if h = 99 then some ⟨99, 2, 101, []⟩
    else none
  hash_by_number n :=
    if n = 0 then some 100 else if n = 1 then some 101
    else if n = 2 then some 102 else none
  number_by_hash h :=
    if h = 100 then some 0 else if h = 101 then some 1
    else if h = 102 then some 2 else none
  tip_number := 2
  tip_hash := 102

/-- Wallet state whose single registered lock 7 has its checkpoint on the
dead fork block 99. -/
def c6db : WalletState := ⟨[(7, ⟨2, 99⟩)], fun _ => none, fun _ => none, fun _ => none⟩

/-- The result of resyncing `c6db` against `c6chain`. -/
def c6res : WalletState := (sync_index_states c6chain 5 c6db).getD c6db

/-- Store for the fee counterexamples: a single previous transaction with
hash 1 and one output of capacity 5. -/
def feeView : ChainView where
  get_header _ := none
  block_hash _ := none
  block_number _ := none
  tip := hdr0
  block_ext _ := none
  block_proposal_txs_ids _ := none
  uncles _ := none
  get_transaction h := if h = 1 then some ⟨1, false, [], [⟨5, 0⟩]⟩ else none

/-- Transaction whose single input references the present transaction 1 at the
out-of-range output index 3. -/
def txBadIdx : STransaction := ⟨30, false, [⟨1, 3⟩], []⟩

/-- Store for the overflow example: a single previous transaction with hash 1
and one output of capacity 2^63. -/
def feeViewBig : ChainView where
  get_header _ := none
  block_hash _ := none
  block_number _ := none
  tip := hdr0
  block_ext _ := none
  block_proposal_txs_ids _ := none
  uncles _ := none
  get_transaction h := if h = 1 then some ⟨1, false, [], [⟨2 ^ 63, 0⟩]⟩ else none

/-- Transaction whose two inputs each reference the 2^63-capacity output, so
the true input capacity sum is 2^64, which overflows u64. -/
def txOverflow : STransaction := ⟨31, false, [⟨1, 0⟩, ⟨1, 0⟩], []⟩

/-- Concrete reward chain: block 12 is mined by lock 1 (Bob) and proposes
short ids 41-48; block 13 is mined by lock 2 (Alice) and proposes 41-56;
every other block is mined by lock 3 and proposes nothing. -/
def rChain : Nat → Reward.RBlock := fun n =>
  if n = 12 then ⟨12, 1, [41, 42, 43, 44, 45, 46, 47, 48], []⟩
  else if n = 13 then
    ⟨13, 2, [41, 42, 43, 44, 45, 46, 47, 48, 49, 50, 51, 52, 53, 54, 55, 56], []⟩
  else ⟨n, 3, [], []⟩

/-- The commit block of the reward witness: number 22, mined by Bob (lock 1),
committing the transactions with short ids 41 and 49, each with fee 10. -/
def rTarget : Reward.RBlock := ⟨22, 1, [], [⟨41, 10⟩, ⟨49, 10⟩]⟩

/-- Specification-side view of one input of the fee computation: the capacity
of the referenced previous output, `none` when the previous transaction is
absent or the index is out of range. -/
def resolved_capacity (S : ChainView) (cop : CellOutPoint) : Option Nat :=
  (S.get_transaction cop.tx_hash).bind
    (fun ptx => (ptx.outputs.get? cop.index).map CellOutput.capacity)

/-- Specification-side view of a transaction's inputs: the list of referenced
previous-output capacities, `none` when any input fails to resolve. -/
def input_capacities (S : ChainView) : List CellOutPoint → Option (List Nat)
  | [] => some []
  | cop :: rest =>
    match resolved_capacity S cop, input_capacities S rest with
    | some c, some cs => some (c :: cs)
    | _, _ => none

/-- A fully resolvable transaction over `feeView`: one input referencing the
capacity-5 output of transaction 1, one output of capacity 2. -/
def txOkFee : STransaction := ⟨32, false, [⟨1, 0⟩], [⟨2, 0⟩]⟩

/-- Whether a queued write touches the `COLUMN_LOCK_HASH_INDEX_STATE`
column. -/
def BatchOp.isStateOp : BatchOp → Bool
  | .putState _ _ => true
  | .delState _ => true
  | _ => false

/-! Theorems. -/

/-- C1: the claim "attaching a sequence S then detaching it in reverse order
leaves every LockIndex column byte-identical to its pre-state, and detach
restores a consumed output under its creating coordinate" fails on the code.
At the failing input (registered lock 7; block A creates output (10, 0) under
lock 7; block B spends it; attach [A, B] in one batch, then detach [B, A]),
`detach_block` restores the live cell and the unspent transaction row under
the consuming coordinate (lock 7, block number 2, consuming transaction hash
20, input index 0), so after the full unwind both rows remain as ghosts while
the pre-state was empty. -/
theorem detach_after_attach_not_inverse :
    (detach_blocks (attach_blocks wdb0 [7] [blkA, blkB]) [7] [blkB, blkA]).map
        (fun st => (st.live_cell ⟨7, 2, 20, 0⟩, st.transaction ⟨7, 2, 20, 0⟩)) =
      some (some ⟨1000, 7⟩, some none) ∧
    wdb0.live_cell ⟨7, 2, 20, 0⟩ = none ∧
    wdb0.transaction ⟨7, 2, 20, 0⟩ = none :=
  ⟨rfl, rfl, rfl⟩

/-- C10: detaching a block that spends a registered-lock output created in an
earlier, already-committed batch panics (modelled as `none`): the attach-time
spend rewrote `CELL_OUT_POINT_LOCK_HASH` with the database value, whose cached
`cell_output` is `None`, and `detach_block` unwraps that field with
`expect("inconsistent state")`.  When the spend and the creation share one
batch, the buffer hit stores `Some(output)` in the reverse mapping and the
detach is total. -/
theorem detach_cross_batch_spend_panics :
    detach_blocks (attach_blocks (attach_blocks wdb0 [7] [blkA]) [7] [blkB]) [7] [blkB] =
      none ∧
    (attach_blocks (attach_blocks wdb0 [7] [blkA]) [7] [blkB]).cell_out_point_lock_hash
        ⟨10, 0⟩ = some ⟨7, 1, none⟩ ∧
    (attach_blocks wdb0 [7] [blkA, blkB]).cell_out_point_lock_hash ⟨10, 0⟩ =
      some ⟨7, 1, some ⟨1000, 7⟩⟩ ∧
    (detach_blocks (attach_blocks wdb0 [7] [blkA, blkB]) [7] [blkB, blkA]).isSome = true :=
  ⟨rfl, rfl, rfl, rfl⟩

/-- C8: the claim "capacity arithmetic in fee computation is overflow-checked;
a transaction whose summed capacities overflow yields an error" fails on the
code, which uses plain u64 `+=` and `sum()`.  For a transaction with two
inputs each referencing a 2^63-capacity output, the true input sum is exactly
2^64, which does not fit in u64, yet the function returns `Ok(0)` (the
wrapped value) instead of an error. -/
theorem calculate_transaction_fee_overflow_wraps :
    calculate_transaction_fee feeViewBig txOverflow = .ok 0 ∧
    2 ^ 63 + 2 ^ 63 = U64M ∧
    ¬2 ^ 63 + 2 ^ 63 < U64M :=
  ⟨rfl, by norm_num [U64M], by norm_num [U64M]⟩

/-- C2 counterexample: on a well-formed three-block canonical chain whose tip
is block 2, querying `get_ancestor` at the base's own canonical number (base =
hash 101, canonical number 1, not the tip) returns the in-memory tip header,
whose number is 2, not 1 — refuting both "header.number equals n whenever Some
is returned" and "the tip header is substituted only when the tip itself is
queried". -/
theorem get_ancestor_claim_counterexample :
    get_ancestor ceView 101 1 = some hdr2 ∧
    hdr2 = ceView.tip ∧
    ceView.block_number 101 = some 1 ∧
    hdr2.number = 2 ∧
    (2 : Nat) ≠ 1 := by
  refine ⟨by decide, rfl, by decide, rfl, by decide⟩

/-- C4 counterexample: at a retarget (interval 2, last = block 1 of the
example chain, 10 uncles in the window, truncated orphan-rate reciprocal 5),
the raw formula gives 4 × 10 × 5 / 2 = 100, which exceeds the cap
2 × last.difficulty = 8, and the function returns the clamped 8 — so the
returned value is not `last.difficulty × U × floor(1 / orphan_rate_target) /
interval` as claimed. -/
theorem calculate_difficulty_claim_counterexample :
    calculate_difficulty ceView ceCons hdr1 = some 8 ∧
    (hdr1.number + 1) % ceCons.difficulty_adjustment_interval = 0 ∧
    ceView.block_ext 100 = some ⟨0⟩ ∧
    ceView.block_ext 101 = some ⟨10⟩ ∧
    hdr1.difficulty * (10 - 0) * ceCons.orphan_rate_reciprocal /
        ceCons.difficulty_adjustment_interval = 100 ∧
    (8 : Nat) ≠ 100 := by
  refine ⟨by decide, by decide, by decide, by decide, by decide, by decide⟩

/-- C7 counterexample: a transaction whose single input references a present
previous transaction (hash 1) at the out-of-range output index 3, with no
outputs, is rejected with `InvalidInput` — although every referenced previous
transaction is present in the store and the output sum (zero) does not exceed
the inputs, so the claim's case split ("InvalidInput only when a referenced
previous transaction is absent, otherwise Ok") does not hold. -/
theorem calculate_transaction_fee_claim_counterexample :
    calculate_transaction_fee feeView txBadIdx = .error .invalidInput ∧
    (∀ cop ∈ txBadIdx.inputs, ∃ ptx, feeView.get_transaction cop.tx_hash = some ptx) ∧
    txBadIdx.outputs = [] := by
  refine ⟨rfl, ?_, rfl⟩
  intro cop hc
  simp only [txBadIdx, List.mem_singleton] at hc
  subst hc
  exact ⟨_, rfl⟩

/-- C5: within one attached block, when transaction `tx1` creates an output
whose registered lock fingerprint is `L` and a later transaction `tx2` of the
same block (hence the same batch) spends it, the committed state after
`attach_block` has no `LOCK_HASH_LIVE_CELL` entry at the output's creating
coordinate, while `LOCK_HASH_TRANSACTION` at the creating coordinate records
the consuming coordinate — the in-memory batch buffer serves the same-batch
read.  Holds from any prior committed state. -/
theorem attach_block_same_batch_spend (db : WalletState) (reg : List Nat)
    (L h1 h2 bn cap ph bh : Nat) (cb : Bool) (hL : L ∈ reg) :
    (attach_blocks db reg
        [⟨bh, bn, ph, [⟨h1, cb, [], [⟨cap, L⟩]⟩, ⟨h2, false, [⟨h1, 0⟩], []⟩]⟩]).live_cell
        ⟨L, bn, h1, 0⟩ = none ∧
    (attach_blocks db reg
        [⟨bh, bn, ph, [⟨h1, cb, [], [⟨cap, L⟩]⟩, ⟨h2, false, [⟨h1, 0⟩], []⟩]⟩]).transaction
        ⟨L, bn, h1, 0⟩ = some (some ⟨bn, h2, 0⟩) := by
  cases cb <;>
    simp [attach_blocks, attach_block, attach_tx, attach_out, attach_in, lookupCellOutput,
      bufGet, commitBatch, applyOp, hL, List.enum, List.enumFrom]

/-- Witness for the same-batch spend theorem at a concrete input. -/
theorem attach_block_same_batch_spend_witness :
    (7 ∈ ([7] : List Nat)) ∧
    ((attach_blocks wdb0 [7]
        [⟨1, 1, 0, [⟨10, false, [], [⟨1000, 7⟩]⟩, ⟨20, false, [⟨10, 0⟩], []⟩]⟩]).live_cell
        ⟨7, 1, 10, 0⟩ = none ∧
    (attach_blocks wdb0 [7]
        [⟨1, 1, 0, [⟨10, false, [], [⟨1000, 7⟩]⟩, ⟨20, false, [⟨10, 0⟩], []⟩]⟩]).transaction
        ⟨7, 1, 10, 0⟩ = some (some ⟨1, 20, 0⟩)) :=
  ⟨by decide, attach_block_same_batch_spend wdb0 [7] 7 10 20 1 1000 0 1 false (by decide)⟩

/-- An unresolved input is a missing previous transaction or an out-of-range
output index. -/
theorem input_capacities_eq_none_iff (S : ChainView) :
    ∀ l : List CellOutPoint,
      input_capacities S l = none ↔ ∃ cop ∈ l, resolved_capacity S cop = none := by
  intro l
  induction l with
  | nil => simp [input_capacities]
  | cons cop rest ih =>
    cases hr : resolved_capacity S cop with
    | none =>
      constructor
      · intro _; exact ⟨cop, List.mem_cons_self _ _, hr⟩
      · intro _; simp only [input_capacities, hr]
    | some c =>
      cases hrest : input_capacities S rest with
      | none =>
        constructor
        · intro _
          rcases ih.mp hrest with ⟨x, hx, hxn⟩
          exact ⟨x, List.mem_cons_of_mem _ hx, hxn⟩
        · intro _; simp only [input_capacities, hr, hrest]
      | some cs =>
        constructor
        · intro h
          rw [input_capacities, hr, hrest] at h
          cases h
        · rintro ⟨x, hx, hxn⟩
          rcases List.mem_cons.mp hx with rfl | hx
          · rw [hr] at hxn; cases hxn
          · have hn := ih.mpr ⟨x, hx, hxn⟩
            rw [hrest] at hn; cases hn

/-- The input loop on a fully resolved input list computes the wrapped
capacity sum. -/
theorem fee_inputs_resolved (S : ChainView) :
    ∀ (l : List CellOutPoint) (caps : List Nat) (acc : Nat), acc < U64M →
      input_capacities S l = some caps →
      fee_inputs S l acc = .ok ((acc + caps.sum) % U64M) := by
  intro l
  induction l with
  | nil =>
    intro caps acc hacc h
    simp only [input_capacities] at h
    cases h
    simp [fee_inputs, Nat.mod_eq_of_lt hacc]
  | cons cop rest ih =>
    intro caps acc hacc h
    rw [input_capacities] at h
    cases hr : resolved_capacity S cop with
    | none => rw [hr] at h; cases h
    | some c =>
      rw [hr] at h
      cases hrest : input_capacities S rest with
      | none => rw [hrest] at h; cases h
      | some cs =>
        rw [hrest] at h
        cases h
        rcases Option.bind_eq_some.mp hr with ⟨ptx, hptx, hcap⟩
        rcases Option.map_eq_some'.mp hcap with ⟨o, ho, hoc⟩
        have hlt : u64_add acc c < U64M := by
          have hpos : 0 < U64M := by norm_num [U64M]
          exact Nat.mod_lt _ hpos
        simp only [fee_inputs, hptx, ho]
        subst hoc
        rw [ih cs (u64_add acc o.capacity) hlt hrest]
        simp [u64_add, Nat.mod_add_mod, Nat.add_assoc]

/-- The input loop fails with `InvalidInput` whenever some input does not
resolve. -/
theorem fee_inputs_unresolved (S : ChainView) :
    ∀ (l : List CellOutPoint) (acc : Nat), input_capacities S l = none →
      fee_inputs S l acc = .error .invalidInput := by
  intro l
  induction l with
  | nil => intro acc h; simp [input_capacities] at h
  | cons cop rest ih =>
    intro acc h
    rw [input_capacities] at h
    cases hr : resolved_capacity S cop with
    | none =>
      cases hptx : S.get_transaction cop.tx_hash with
      | none => simp only [fee_inputs, hptx]
      | some ptx =>
        cases ho : ptx.outputs.get? cop.index with
        | none => simp only [fee_inputs, hptx, ho]
        | some o =>
          exfalso
          have hres : resolved_capacity S cop = some o.capacity := by
            simp only [resolved_capacity, hptx, Option.some_bind, ho, Option.map_some']
          rw [hr] at hres; cases hres
    | some c =>
      rw [hr] at h
      cases hrest : input_capacities S rest with
      | none =>
        rcases Option.bind_eq_some.mp hr with ⟨ptx, hptx, hcap⟩
        rcases Option.map_eq_some'.mp hcap with ⟨o, ho, _⟩
        simp only [fee_inputs, hptx, ho]
        exact ih _ hrest
      | some cs => rw [hrest] at h; cases h

/-- The output fold computes the wrapped output capacity sum. -/
theorem fee_outputs_sum :
    ∀ (l : List CellOutput) (acc : Nat), acc < U64M →
      l.foldl (fun a o => u64_add a o.capacity) acc =
        (acc + (l.map CellOutput.capacity).sum) % U64M := by
  intro l
  induction l with
  | nil => intro acc hacc; simp [Nat.mod_eq_of_lt hacc]
  | cons o rest ih =>
    intro acc hacc
    have hlt : u64_add acc o.capacity < U64M := by
      have hpos : 0 < U64M := by norm_num [U64M]
      exact Nat.mod_lt _ hpos
    simp only [List.foldl_cons]
    rw [ih (u64_add acc o.capacity) hlt]
    simp [u64_add, Nat.mod_add_mod, Nat.add_assoc]

/-- C7 (amended): `calculate_transaction_fee` returns `Err(InvalidInput)` if
any input's referenced previous transaction is absent from the store or the
input's index is not less than that transaction's output count; when every
input resolves (and the true capacity sums fit in u64, so no wrapping
occurs), it returns `Err(InvalidOutput)` if the output capacity sum exceeds
the input capacity sum and otherwise `Ok` of the difference. -/
theorem calculate_transaction_fee_amended (S : ChainView) (tx : STransaction) :
    (input_capacities S tx.inputs = none →
      calculate_transaction_fee S tx = .error .invalidInput) ∧
    (∀ caps, input_capacities S tx.inputs = some caps →
      caps.sum < U64M → (tx.outputs.map CellOutput.capacity).sum < U64M →
      calculate_transaction_fee S tx =
        if caps.sum < (tx.outputs.map CellOutput.capacity).sum then .error .invalidOutput
        else .ok (caps.sum - (tx.outputs.map CellOutput.capacity).sum)) ∧
    (input_capacities S tx.inputs = none ↔
      ∃ cop ∈ tx.inputs, resolved_capacity S cop = none) := by
  refine ⟨?_, ?_, input_capacities_eq_none_iff S tx.inputs⟩
  · intro h
    rw [calculate_transaction_fee, fee_inputs_unresolved S tx.inputs 0 h]
  · intro caps hcaps hin hout
    have h0 : (0 : Nat) < U64M := by norm_num [U64M]
    rw [calculate_transaction_fee, fee_inputs_resolved S tx.inputs caps 0 h0 hcaps]
    rw [fee_outputs_sum tx.outputs 0 h0]
    simp only [Nat.zero_add]
    rw [Nat.mod_eq_of_lt hin, Nat.mod_eq_of_lt hout]

/-- Witness for the amended fee theorem: over `feeView`, transaction
`txOkFee` resolves to input capacities `[5]` and one output of capacity 2,
and the fee computation returns `Ok(3)`. -/
theorem calculate_transaction_fee_amended_witness :
    input_capacities feeView txOkFee.inputs = some [5] ∧
    calculate_transaction_fee feeView txOkFee =
      (if ([5] : List Nat).sum < (txOkFee.outputs.map CellOutput.capacity).sum
       then .error .invalidOutput
       else .ok (([5] : List Nat).sum - (txOkFee.outputs.map CellOutput.capacity).sum)) ∧
    calculate_transaction_fee feeView txOkFee = .ok 3 :=
  ⟨by decide,
   (calculate_transaction_fee_amended feeView txOkFee).2.1 [5] (by decide)
     (by norm_num [U64M]) (by norm_num [U64M, txOkFee]),
   rfl⟩

/-- C4 (amended): with a positive adjustment interval `I`, if
`(last.number + 1) mod I` is nonzero, `calculate_difficulty` returns
`Some(last.difficulty)`; otherwise, whenever it returns `Some(new)`, the
window-start ancestor and both block extensions resolved, and `new` is the
raw value `last.difficulty × U × floor(1 / orphan_rate_target) / I` clamped —
first capped at `last.difficulty × 2`, then raised to `min_difficulty` — so
the bounds `min_difficulty ≤ new ≤ last.difficulty × 2` hold whenever
`min_difficulty ≤ last.difficulty × 2`. -/
theorem calculate_difficulty_amended (S : ChainView) (C : Consensus) (last : Header)
    (hI : 0 < C.difficulty_adjustment_interval) :
    ((last.number + 1) % C.difficulty_adjustment_interval ≠ 0 →
      calculate_difficulty S C last = some last.difficulty) ∧
    (∀ d, (last.number + 1) % C.difficulty_adjustment_interval = 0 →
      calculate_difficulty S C last = some d →
      ∃ sh se le,
        get_ancestor S last.hash (last.number - C.difficulty_adjustment_interval) = some sh ∧
        S.block_ext sh.hash = some se ∧
        S.block_ext last.hash = some le ∧
        se.total_uncles_count ≤ le.total_uncles_count ∧
        d = (if last.difficulty * (le.total_uncles_count - se.total_uncles_count) *
                C.orphan_rate_reciprocal / C.difficulty_adjustment_interval >
                last.difficulty * 2
             then last.difficulty * 2
             else if last.difficulty * (le.total_uncles_count - se.total_uncles_count) *
                C.orphan_rate_reciprocal / C.difficulty_adjustment_interval <
                C.min_difficulty
             then C.min_difficulty
             else last.difficulty * (le.total_uncles_count - se.total_uncles_count) *
                C.orphan_rate_reciprocal / C.difficulty_adjustment_interval) ∧
        (C.min_difficulty ≤ last.difficulty * 2 →
          C.min_difficulty ≤ d ∧ d ≤ last.difficulty * 2)) := by
  have hne0 : C.difficulty_adjustment_interval ≠ 0 := Nat.pos_iff_ne_zero.mp hI
  constructor
  · intro hne
    rw [calculate_difficulty, if_neg hne0, if_pos hne]
  · intro d h0 hd
    rw [calculate_difficulty, if_neg hne0, if_neg (not_not_intro h0)] at hd
    cases hsh : get_ancestor S last.hash (last.number - C.difficulty_adjustment_interval) with
    | none => rw [hsh] at hd; cases hd
    | some sh =>
      simp only [hsh] at hd
      cases hse : S.block_ext sh.hash with
      | none =>
        cases hle : S.block_ext last.hash with
        | none => simp only [hse, hle] at hd; exact Option.noConfusion hd
        | some le => simp only [hse, hle] at hd; exact Option.noConfusion hd
      | some se =>
        cases hle : S.block_ext last.hash with
        | none => simp only [hse, hle] at hd; exact Option.noConfusion hd
        | some le =>
          simp only [hse, hle] at hd
          by_cases hlt : le.total_uncles_count < se.total_uncles_count
          · rw [if_pos hlt] at hd; cases hd
          · rw [if_neg hlt] at hd
            refine ⟨sh, se, le, rfl, hse, rfl, Nat.not_lt.mp hlt, ?_⟩
            simp only [gt_iff_lt] at hd ⊢
            split_ifs at hd with h1 h2
            · injection hd with hd; subst hd
              exact ⟨(if_pos h1).symm, fun hmin => ⟨hmin, Nat.le_refl _⟩⟩
            · injection hd with hd; subst hd
              refine ⟨?_, fun hmin => ⟨Nat.le_refl _, hmin⟩⟩
              rw [if_neg h1, if_pos h2]
            · injection hd with hd; subst hd
              refine ⟨?_, fun _ => ⟨Nat.not_lt.mp h2, Nat.not_lt.mp h1⟩⟩
              rw [if_neg h1, if_neg h2]

/-- Witness for the amended difficulty theorem at a concrete retarget: the
example chain, interval 2, last = block 1. -/
theorem calculate_difficulty_amended_witness :
    0 < ceCons.difficulty_adjustment_interval ∧
    (hdr1.number + 1) % ceCons.difficulty_adjustment_interval = 0 ∧
    calculate_difficulty ceView ceCons hdr1 = some 8 ∧
    (∃ sh se le,
      get_ancestor ceView hdr1.hash (hdr1.number - ceCons.difficulty_adjustment_interval) =
        some sh ∧
      ceView.block_ext sh.hash = some se ∧
      ceView.block_ext hdr1.hash = some le ∧
      se.total_uncles_count ≤ le.total_uncles_count ∧
      (8 : Nat) = (if hdr1.difficulty * (le.total_uncles_count - se.total_uncles_count) *
            ceCons.orphan_rate_reciprocal / ceCons.difficulty_adjustment_interval >
            hdr1.difficulty * 2
         then hdr1.difficulty * 2
         else if hdr1.difficulty * (le.total_uncles_count - se.total_uncles_count) *
            ceCons.orphan_rate_reciprocal / ceCons.difficulty_adjustment_interval <
            ceCons.min_difficulty
         then ceCons.min_difficulty
         else hdr1.difficulty * (le.total_uncles_count - se.total_uncles_count) *
            ceCons.orphan_rate_reciprocal / ceCons.difficulty_adjustment_interval) ∧
      (ceCons.min_difficulty ≤ hdr1.difficulty * 2 →
        ceCons.min_difficulty ≤ 8 ∧ 8 ≤ hdr1.difficulty * 2)) :=
  ⟨by decide, by decide, by decide,
   (calculate_difficulty_amended ceView ceCons hdr1 (by decide)).2 8 (by decide) (by decide)⟩

/-- Under well-formedness the tip short-circuit of `block_header` agrees with
the store, so the two lookups coincide. -/
theorem block_header_eq_get_header {S : ChainView} (hWF : WF S) (h : Nat) :
    block_header S h = S.get_header h := by
  rw [block_header]
  by_cases ht : S.tip.hash = h
  · rw [if_pos ht, ← ht, hWF.tip_in_store]
  · rw [if_neg ht]

/-- Reachability along parent links is transitive. -/
theorem Reach.trans {S : ChainView} {a b c : Header} (h1 : Reach S a b)
    (h2 : Reach S b c) : Reach S a c := by
  induction h2 with
  | refl => exact h1
  | step _ hstep ih => exact Reach.step ih hstep

/-- In a well-formed view, the canonical block at number `n` is reachable by
parent links from the canonical block at number `n + k`. -/
theorem canonical_reach {S : ChainView} (hWF : WF S) :
    ∀ (k n : Nat) {h hd}, S.block_hash (n + k) = some h → S.get_header h = some hd →
      ∃ h' hd', S.block_hash n = some h' ∧ S.get_header h' = some hd' ∧ Reach S hd hd' := by
  intro k
  induction k with
  | zero => intro n h hd hbh hgh; exact ⟨h, hd, hbh, hgh, Reach.refl hd⟩
  | succ k ih =>
    intro n h hd hbh hgh
    rw [Nat.add_succ] at hbh
    have hpar : S.block_hash (n + k) = some hd.parent_hash := hWF.idx_parent hbh hgh
    rcases hWF.idx_hdr hpar with ⟨hdp, hghp, _⟩
    have hstep : Reach S hd hdp :=
      Reach.step (Reach.refl hd) (by rw [block_header_eq_get_header hWF]; exact hghp)
    rcases ih n hpar hghp with ⟨h', hd', hbh', hgh', hr⟩
    exact ⟨h', hd', hbh', hgh', Reach.trans hstep hr⟩

/-- The fork-path walk of `get_ancestor`, started from a stored header, lands
on a header whose number is exactly `k` lower and which is reachable by parent
links. -/
theorem ancestor_walk_spec {S : ChainView} (hWF : WF S) :
    ∀ (k : Nat) {h hd hd'}, S.get_header h = some hd →
      ancestor_walk S k hd = some hd' → hd'.number + k = hd.number ∧ Reach S hd hd' := by
  intro k
  induction k with
  | zero =>
    intro h hd hd' _ hw
    simp only [ancestor_walk, Option.some.injEq] at hw
    subst hw
    exact ⟨rfl, Reach.refl _⟩
  | succ k ih =>
    intro h hd hd' hgh hw
    rw [ancestor_walk] at hw
    cases hbp : block_header S hd.parent_hash with
    | none => simp only [hbp] at hw; exact Option.noConfusion hw
    | some hdp =>
      simp only [hbp] at hw
      have hgp : S.get_header hd.parent_hash = some hdp := by
        rw [← block_header_eq_get_header hWF]; exact hbp
      have hnum := hWF.parent_number hgh hgp
      rcases ih hgp hw with ⟨hn, hr⟩
      refine ⟨by omega, Reach.trans (Reach.step (Reach.refl hd) hbp) hr⟩

/-- C2 (amended): on a well-formed store, whenever `get_ancestor(h, n)`
returns `Some(header)`, either `n` equals `h`'s canonical-index number — in
which case the in-memory tip header is returned whether or not `h` is the tip
— or `header.number = n` and the returned header is reachable from `h` along
parent links. -/
theorem get_ancestor_amended (S : ChainView) (hWF : WF S) (base n : Nat) (hd : Header)
    (h : get_ancestor S base n = some hd) :
    (S.block_number base = some n ∧ hd = S.tip) ∨
    (hd.number = n ∧ ∃ hd0, block_header S base = some hd0 ∧ Reach S hd0 hd) := by
  rw [get_ancestor] at h
  cases hbn : S.block_number base with
  | some n0 =>
    simp only [hbn] at h
    by_cases hgt : n > n0
    · rw [if_pos hgt] at h; cases h
    · rw [if_neg hgt] at h
      by_cases heq : n = n0
      · rw [if_pos heq] at h
        injection h with h
        subst heq
        exact Or.inl ⟨rfl, h.symm⟩
      · rw [if_neg heq] at h
        rcases Option.bind_eq_some.mp h with ⟨bh, hbh, hbhd⟩
        have hgh : S.get_header bh = some hd := by
          rw [← block_header_eq_get_header hWF]; exact hbhd
        rcases hWF.idx_hdr hbh with ⟨hd2, hgh2, hnum2⟩
        rw [hgh] at hgh2
        injection hgh2 with e
        subst e
        have hbase_idx : S.block_hash n0 = some base := hWF.num_to_idx hbn
        rcases hWF.idx_hdr hbase_idx with ⟨hd0, hgh0, _⟩
        have hlt : n < n0 := Nat.lt_of_le_of_ne (Nat.not_lt.mp hgt) heq
        obtain ⟨k, hk⟩ : ∃ k, n0 = n + k := ⟨n0 - n, by omega⟩
        subst hk
        rcases canonical_reach hWF k n hbase_idx hgh0 with ⟨h', hd', hbh', hgh', hr⟩
        rw [hbh] at hbh'
        injection hbh' with e1
        subst e1
        rw [hgh] at hgh'
        injection hgh' with e2
        subst e2
        refine Or.inr ⟨hnum2, hd0, ?_, hr⟩
        rw [block_header_eq_get_header hWF]
        exact hgh0
  | none =>
    simp only [hbn] at h
    cases hbh : block_header S base with
    | none => simp only [hbh] at h; exact Option.noConfusion h
    | some hd0 =>
      simp only [hbh] at h
      by_cases hgt : n > hd0.number
      · rw [if_pos hgt] at h; cases h
      · rw [if_neg hgt] at h
        have hgh0 : S.get_header base = some hd0 := by
          rw [← block_header_eq_get_header hWF]; exact hbh
        rcases ancestor_walk_spec hWF (hd0.number - n) hgh0 h with ⟨hnum, hr⟩
        refine Or.inr ⟨by omega, hd0, rfl, hr⟩

/-- The example chain view is well-formed. -/
theorem ceView_wf : WF ceView := by
  constructor
  · intro h hd hh
    simp only [ceView] at hh
    split_ifs at hh with h1 h2 h3
    · injection hh with e; subst e; subst h1; rfl
    · injection hh with e; subst e; subst h2; rfl
    · injection hh with e; subst e; subst h3; rfl
  · rfl
  · intro n h hbh
    simp only [ceView] at hbh
    split_ifs at hbh with h1 h2 h3
    · injection hbh with e; subst e; subst h1; exact ⟨hdr0, rfl, rfl⟩
    · injection hbh with e; subst e; subst h2; exact ⟨hdr1, rfl, rfl⟩
    · injection hbh with e; subst e; subst h3; exact ⟨hdr2, rfl, rfl⟩
  · intro n h hd hbh hgh
    rcases n with _ | _ | n
    · injection hbh with e
      subst e
      injection hgh with e2
      subst e2
      rfl
    · injection hbh with e
      subst e
      injection hgh with e2
      subst e2
      rfl
    · exact Option.noConfusion hbh
  · intro h n hn
    simp only [ceView] at hn
    split_ifs at hn with h1 h2 h3
    · injection hn with e; subst e; subst h1; rfl
    · injection hn with e; subst e; subst h2; rfl
    · injection hn with e; subst e; subst h3; rfl
  · intro h hd hd' hgh hgp
    simp only [ceView] at hgh
    split_ifs at hgh with h1 h2 h3
    · injection hgh with e
      subst e
      exact Option.noConfusion hgp
    · injection hgh with e
      subst e
      injection hgp with e2
      subst e2
      rfl
    · injection hgh with e
      subst e
      injection hgp with e2
      subst e2
      rfl

/-- Witness for the amended ancestor theorem: the genesis header is returned
for a query at number 0 from the tip hash, and the theorem classifies it. -/
theorem get_ancestor_amended_witness :
    get_ancestor ceView 102 0 = some hdr0 ∧
    ((ceView.block_number 102 = some 0 ∧ hdr0 = ceView.tip) ∨
     (hdr0.number = 0 ∧ ∃ hd0, block_header ceView 102 = some hd0 ∧ Reach ceView hd0 hdr0)) :=
  ⟨by decide, get_ancestor_amended ceView ceView_wf 102 0 hdr0 (by decide)⟩

/-- The walk of `union_proposal_ids_n`, started at the canonical block of
number `bn` with `m ≤ bn`, appends one duplicate-free collection per visited
block; the `i`-th appended collection belongs to the canonical block at
`bn - i` and holds exactly the block's own proposal ids and its uncles'. -/
theorem union_go_spec {S : ChainView} (hWF : WF S) :
    ∀ (m bn h : Nat) (acc : List (List Nat)), S.block_hash bn = some h → m ≤ bn →
      ∃ tail, union_go S m h acc = some (acc ++ tail) ∧ tail.length = m ∧
        ∀ i, i < m → ∃ h' ids, S.block_hash (bn - i) = some h' ∧ tail[i]? = some ids ∧
          ids.Nodup ∧
          ∀ id, id ∈ ids ↔ (id ∈ (S.block_proposal_txs_ids h').getD [] ∨
            ∃ u ∈ (S.uncles h').getD [], id ∈ u.proposal_transactions) := by
  intro m
  induction m with
  | zero =>
    intro bn h acc hbh _
    exact ⟨[], by simp [union_go], rfl, fun i hi => absurd hi (Nat.not_lt_zero i)⟩
  | succ m ih =>
    intro bn h acc hbh hm
    rcases hWF.idx_hdr hbh with ⟨hd, hgh, hnum⟩
    have hbhd : block_header S h = some hd := by
      rw [block_header_eq_get_header hWF]; exact hgh
    have hbn1 : bn - 1 + 1 = bn := by omega
    have hpar : S.block_hash (bn - 1) = some hd.parent_hash :=
      hWF.idx_parent (by rw [hbn1]; exact hbh) hgh
    obtain ⟨tail, hgo, hlen, hprops⟩ := ih (bn - 1) hd.parent_hash
      (acc ++ [((S.block_proposal_txs_ids h).getD [] ++
        (((S.uncles h).getD []).map UncleB.proposal_transactions).flatten).dedup])
      hpar (by omega)
    refine ⟨((S.block_proposal_txs_ids h).getD [] ++
        (((S.uncles h).getD []).map UncleB.proposal_transactions).flatten).dedup :: tail,
      ?_, ?_, ?_⟩
    · simp only [union_go, hbhd]
      rw [hgo]
      simp [List.append_assoc]
    · simp [hlen]
    · intro i hi
      cases i with
      | zero =>
        refine ⟨h, _, by simpa using hbh, List.getElem?_cons_zero, List.nodup_dedup _, ?_⟩
        intro id
        simp [List.mem_dedup, List.mem_append, List.mem_flatten, List.mem_map]
      | succ i =>
        have hi' : i < m := by omega
        obtain ⟨h', ids', hbh', hget, hnd, hmem⟩ := hprops i hi'
        refine ⟨h', ids', ?_, by rw [List.getElem?_cons_succ]; exact hget, hnd, hmem⟩
        have he : bn - (i + 1) = bn - 1 - i := by omega
        rw [he]; exact hbh'

/-- C9: when the index has no hash at `bn`, `union_proposal_ids_n` returns an
empty outer vector; otherwise (on a well-formed store) it returns `min n bn`
inner collections, newest block first, where the `i`-th collection is
duplicate-free and holds exactly the proposal short ids of canonical block
`bn - i` and of that block's uncles. -/
theorem union_proposal_ids_n_spec (S : ChainView) (hWF : WF S) (bn n : Nat) :
    (S.block_hash bn = none → union_proposal_ids_n S bn n = some []) ∧
    (∀ h, S.block_hash bn = some h →
      ∃ l, union_proposal_ids_n S bn n = some l ∧ l.length = min n bn ∧
        ∀ i, i < l.length →
          ∃ h' ids, S.block_hash (bn - i) = some h' ∧ l[i]? = some ids ∧
            ids.Nodup ∧
            ∀ id, id ∈ ids ↔ (id ∈ (S.block_proposal_txs_ids h').getD [] ∨
              ∃ u ∈ (S.uncles h').getD [], id ∈ u.proposal_transactions)) := by
  constructor
  · intro hn
    simp only [union_proposal_ids_n, hn]
  · intro h hbh
    have hm : (if bn > n then n else bn) ≤ bn := by split_ifs with hc <;> omega
    obtain ⟨tail, hgo, hlen, hprops⟩ :=
      union_go_spec hWF (if bn > n then n else bn) bn h [] hbh hm
    refine ⟨tail, ?_, ?_, ?_⟩
    · simp only [union_proposal_ids_n, hbh]
      simpa using hgo
    · rw [hlen]
      split_ifs with hc <;> omega
    · intro i hi
      rw [hlen] at hi
      exact hprops i hi

/-- Witness for the proposal-window theorem: the example chain at block 2 with
window 5 yields two collections. -/
theorem union_proposal_ids_n_spec_witness :
    ceView.block_hash 2 = some 102 ∧
    (∃ l, union_proposal_ids_n ceView 2 5 = some l ∧ l.length = min 5 2 ∧
      ∀ i, i < l.length →
        ∃ h' ids, ceView.block_hash (2 - i) = some h' ∧ l[i]? = some ids ∧
          ids.Nodup ∧
          ∀ id, id ∈ ids ↔ (id ∈ (ceView.block_proposal_txs_ids h').getD [] ∨
            ∃ u ∈ (ceView.uncles h').getD [], id ∈ u.proposal_transactions)) :=
  ⟨by decide, (union_proposal_ids_n_spec ceView ceView_wf 2 5).2 102 (by decide)⟩

/-- Applying the ratio to the summed fees of the selected transactions equals
summing the per-transaction ratio shares (exact rational arithmetic). -/
theorem reward_sum_split (ratio : ℚ) (P : Reward.RTx → Prop) [DecidablePred P] :
    ∀ l : List Reward.RTx,
      ratio * ((l.filter (fun tx => decide (P tx))).map Reward.RTx.fee).sum =
        (l.map (fun tx => if P tx then tx.fee * ratio else 0)).sum := by
  intro l
  induction l with
  | nil => simp
  | cons tx rest ih =>
    by_cases hp : P tx
    · simp [List.filter_cons, hp, mul_add, ih, mul_comm]
    · simp [List.filter_cons, hp, ih]

/-- On a strictly ascending range, `find?` returns the given element whenever
it satisfies the predicate and every smaller element of the range fails it. -/
theorem find?_range'_first (p : Nat → Bool) :
    ∀ (len s p1 : Nat), p1 ∈ List.range' s len → p p1 = true →
      (∀ q, q ∈ List.range' s len → q < p1 → p q = false) →
      (List.range' s len).find? p = some p1 := by
  intro len
  induction len with
  | zero => intro s p1 h _ _; simp [List.range'] at h
  | succ len ih =>
    intro s p1 hmem hp hmin
    rw [List.range']
    cases hps : p s with
    | true =>
      rw [List.find?_cons_of_pos _ hps]
      have hs_le : s ≤ p1 := by
        have := List.mem_range'_1.mp hmem
        omega
      rcases Nat.eq_or_lt_of_le hs_le with he | hlt
      · rw [he]
      · exfalso
        have hqs : s ∈ List.range' s (len + 1) := by
          rw [List.mem_range'_1]; omega
        have := hmin s hqs hlt
        rw [hps] at this
        cases this
    | false =>
      rw [List.find?_cons_of_neg _ (by simp [hps])]
      have hmem' : p1 ∈ List.range' (s + 1) len := by
        rw [List.range'] at hmem
        rcases List.mem_cons.mp hmem with he | h
        · subst he; rw [hps] at hp; cases hp
        · exact h
      refine ih (s + 1) p1 hmem' hp ?_
      intro q hq hql
      refine hmin q ?_ hql
      rw [List.range']
      exact List.mem_cons_of_mem _ hq

/-- C3 (spec-modelled): `finalize_block_reward(T)` pays T's miner lock (from
the cellbase witness) the base subsidy plus, for exactly those transactions
committed in T whose short id was first proposed — within T's proposal window,
earliest block number winning — by T's own miner, their fees times the
proposer ratio; a transaction whose first proposer in the window differs from
T's miner contributes nothing to the sum.  The third conjunct pins the
earliest-wins search: whenever `p1` lies in the window, proposes the id, and
no smaller window block proposes it, the proposer is `p1`'s miner. -/
theorem finalize_block_reward_spec (chain : Nat → Reward.RBlock) (far close : Nat)
    (ratio : ℚ) (block_reward : Nat → ℚ) (t : Reward.RBlock) :
    (Reward.finalize_block_reward chain far close ratio block_reward t).1 = t.miner_lock ∧
    (Reward.finalize_block_reward chain far close ratio block_reward t).2 =
      block_reward t.number +
        (t.committed.map (fun tx =>
          if Reward.proposer_of chain far close t.number tx.short_id = some t.miner_lock
          then tx.fee * ratio else 0)).sum ∧
    (∀ id p1, p1 ∈ Reward.window_numbers far close t.number →
      id ∈ (chain p1).proposals →
      (∀ q, q ∈ Reward.window_numbers far close t.number → q < p1 →
        id ∉ (chain q).proposals) →
      Reward.proposer_of chain far close t.number id = some (chain p1).miner_lock) := by
  refine ⟨rfl, ?_, ?_⟩
  · show block_reward t.number + ratio * _ = _
    rw [reward_sum_split ratio
      (fun tx => Reward.proposer_of chain far close t.number tx.short_id = some t.miner_lock)]
  · intro id p1 hval hin hmin
    have hfind := find?_range'_first (fun n => decide (id ∈ (chain n).proposals))
      (far + 1 - close) (t.number - far) p1 hval (by simpa using hin)
      (fun q hq hql => by simpa using hmin q hq hql)
    rw [Reward.proposer_of, Reward.window_numbers, hfind]
    rfl

/-- Witness for the reward theorem: the concrete chain where Bob (lock 1)
proposed ids 41-48 in block 12, Alice (lock 2) proposed 41-56 in block 13, and
Bob's block 22 commits the transactions with ids 41 and 49. -/
theorem finalize_block_reward_spec_witness :
    (Reward.finalize_block_reward rChain 10 2 (2/5) (fun _ => 1000) rTarget).1 =
      rTarget.miner_lock ∧
    (Reward.finalize_block_reward rChain 10 2 (2/5) (fun _ => 1000) rTarget).2 =
      (fun _ => (1000 : ℚ)) rTarget.number +
        (rTarget.committed.map (fun tx =>
          if Reward.proposer_of rChain 10 2 rTarget.number tx.short_id =
              some rTarget.miner_lock
          then tx.fee * (2 / 5) else 0)).sum ∧
    Reward.proposer_of rChain 10 2 rTarget.number 41 = some (rChain 12).miner_lock :=
  ⟨(finalize_block_reward_spec rChain 10 2 (2/5) (fun _ => 1000) rTarget).1,
   (finalize_block_reward_spec rChain 10 2 (2/5) (fun _ => 1000) rTarget).2.1,
   (finalize_block_reward_spec rChain 10 2 (2/5) (fun _ => 1000) rTarget).2.2 41 12
     (by decide) (by decide)
     (by
       intro q hq hql
       rw [Reward.window_numbers] at hq
       have hb := List.mem_range'_1.mp hq
       have hn : rTarget.number = 22 := rfl
       rw [hn] at hb
       omega)⟩

/-- Keyed lookup distributes over list append. -/
theorem lookupState_append (l1 l2 : List (Nat × LockHashIndexState)) (k : Nat) :
    lookupState (l1 ++ l2) k =
      match lookupState l1 k with
      | some v => some v
      | none => lookupState l2 k := by
  induction l1 with
  | nil => rfl
  | cons p rest ih =>
    obtain ⟨k0, v0⟩ := p
    rw [List.cons_append, lookupState, lookupState]
    by_cases h0 : k0 = k
    · rw [if_pos h0, if_pos h0]
    · rw [if_neg h0, if_neg h0, ih]

/-- Erasing a key removes exactly that key's entry. -/
theorem lookupState_eraseKey_self (l : List (Nat × LockHashIndexState)) (k : Nat) :
    lookupState (eraseKeyState l k) k = none := by
  induction l with
  | nil => rfl
  | cons p rest ih =>
    obtain ⟨k0, v0⟩ := p
    rw [eraseKeyState]
    by_cases he : k0 = k
    · rw [if_pos he]; exact ih
    · rw [if_neg he, lookupState, if_neg he]; exact ih

/-- Erasing one key leaves every other key's entry unchanged. -/
theorem lookupState_eraseKey (l : List (Nat × LockHashIndexState)) (k k' : Nat)
    (hne : k' ≠ k) : lookupState (eraseKeyState l k) k' = lookupState l k' := by
  induction l with
  | nil => rfl
  | cons p rest ih =>
    obtain ⟨k0, v0⟩ := p
    by_cases he : k0 = k
    · subst he
      rw [eraseKeyState, if_pos rfl, ih, lookupState, if_neg (fun hh => hne hh.symm)]
    · rw [eraseKeyState, if_neg he, lookupState, lookupState]
      by_cases h0 : k0 = k'
      · rw [if_pos h0, if_pos h0]
      · rw [if_neg h0, if_neg h0, ih]

/-- The keyed overwrite behaves as a map update. -/
theorem lookupState_insert (l : List (Nat × LockHashIndexState)) (k : Nat)
    (v : LockHashIndexState) (k' : Nat) :
    lookupState (insertState l k v) k' = if k' = k then some v else lookupState l k' := by
  rw [insertState, lookupState_append]
  by_cases he : k' = k
  · subst he
    rw [lookupState_eraseKey_self, if_pos rfl]
    show lookupState [(k', v)] k' = some v
    rw [lookupState, if_pos rfl]
  · rw [if_neg he, lookupState_eraseKey l k k' he]
    cases hl : lookupState l k' with
    | some w => rfl
    | none =>
      show lookupState [(k, v)] k' = none
      rw [lookupState, if_neg (fun hh => he hh.symm)]
      rfl

/-- Folding keyed overwrites over keys not containing `k` leaves `k`'s entry
unchanged. -/
theorem lookupState_foldl_insert_not_mem (v : LockHashIndexState) :
    ∀ (keys : List Nat) (l : List (Nat × LockHashIndexState)) (k : Nat), k ∉ keys →
      lookupState (keys.foldl (fun acc k0 => insertState acc k0 v) l) k =
        lookupState l k := by
  intro keys
  induction keys with
  | nil => intro l k _; rfl
  | cons k0 rest ih =>
    intro l k hk
    rw [List.foldl_cons, ih _ _ (fun hh => hk (List.mem_cons_of_mem _ hh)),
      lookupState_insert, if_neg (fun hh => hk (by rw [hh]; exact List.mem_cons_self _ _))]

/-- Folding keyed overwrites over keys containing `k` sets `k`'s entry to the
written value. -/
theorem lookupState_foldl_insert_mem (v : LockHashIndexState) :
    ∀ (keys : List Nat) (l : List (Nat × LockHashIndexState)) (k : Nat), k ∈ keys →
      lookupState (keys.foldl (fun acc k0 => insertState acc k0 v) l) k = some v := by
  intro keys
  induction keys with
  | nil => intro l k hk; cases hk
  | cons k0 rest ih =>
    intro l k hk
    rw [List.foldl_cons]
    by_cases hmem : k ∈ rest
    · exact ih _ _ hmem
    · rcases List.mem_cons.mp hk with rfl | hh
      · rw [lookupState_foldl_insert_not_mem v rest _ _ hmem, lookupState_insert, if_pos rfl]
      · exact absurd hh hmem

/-- A key with an entry is among the column's keys. -/
theorem lookupState_mem_keys :
    ∀ (l : List (Nat × LockHashIndexState)) (k : Nat) (v : LockHashIndexState),
      lookupState l k = some v → k ∈ l.map (fun p => p.1) := by
  intro l
  induction l with
  | nil => intro k v h; cases h
  | cons p rest ih =>
    intro k v h
    obtain ⟨k0, v0⟩ := p
    rw [lookupState] at h
    by_cases he : k0 = k
    · subst he; exact List.mem_cons_self _ _
    · rw [if_neg he] at h
      exact List.mem_cons_of_mem _ (ih k v h)

/-- A committed batch splits at an append. -/
theorem commitBatch_append (st : WalletState) (a b : List BatchOp) :
    commitBatch st (a ++ b) = commitBatch (commitBatch st a) b := by
  rw [commitBatch, commitBatch, commitBatch, List.foldl_append]

/-- A write to another column leaves the index-state column unchanged. -/
theorem index_state_applyOp_neutral (st : WalletState) (op : BatchOp)
    (h : op.isStateOp = false) : (applyOp st op).index_state = st.index_state := by
  cases op with
  | putState k v => exact Bool.noConfusion h
  | delState k => exact Bool.noConfusion h
  | putLive k v => rfl
  | delLive k => rfl
  | putTx k v => rfl
  | delTx k => rfl
  | putCell k v => rfl
  | delCell k => rfl

/-- A batch of writes to the other columns leaves the index-state column
unchanged. -/
theorem index_state_commitBatch_neutral :
    ∀ (ops : List BatchOp) (st : WalletState), (∀ op ∈ ops, op.isStateOp = false) →
      (commitBatch st ops).index_state = st.index_state := by
  intro ops
  induction ops with
  | nil => intro st _; rfl
  | cons op rest ih =>
    intro st h
    rw [commitBatch, List.foldl_cons]
    have hr := ih (applyOp st op) (fun o ho => h o (List.mem_cons_of_mem _ ho))
    rw [commitBatch] at hr
    rw [hr, index_state_applyOp_neutral st op (h op (List.mem_cons_self _ _))]

/-- Committing a list of index-state writes folds keyed overwrites over the
column. -/
theorem commit_putState_map (v : LockHashIndexState) :
    ∀ (keys : List Nat) (st : WalletState),
      (commitBatch st (keys.map (fun k => BatchOp.putState k v))).index_state =
        keys.foldl (fun l k => insertState l k v) st.index_state := by
  intro keys
  induction keys with
  | nil => intro st; rfl
  | cons k rest ih =>
    intro st
    rw [List.map_cons, commitBatch, List.foldl_cons, List.foldl_cons]
    have hr := ih (applyOp st (BatchOp.putState k v))
    rw [commitBatch] at hr
    rw [hr]
    rfl

/-- An invariant preserved by each step of a fold is preserved by the fold. -/
theorem foldl_preserve {α β : Type} {P : β → Prop} (f : β → α → β)
    (hf : ∀ b a, P b → P (f b a)) : ∀ (l : List α) (b : β), P b → P (l.foldl f b) := by
  intro l
  induction l with
  | nil => intro b hb; exact hb
  | cons a rest ih => intro b hb; exact ih _ (hf b a hb)

/-- An invariant preserved by each successful step of a monadic fold over
`Option` is preserved by the fold. -/
theorem foldlM_option_preserve {α β : Type} {P : β → Prop} (f : β → α → Option β)
    (hf : ∀ b a b', P b → f b a = some b' → P b') :
    ∀ (l : List α) (b b' : β), l.foldlM f b = some b' → P b → P b' := by
  intro l
  induction l with
  | nil =>
    intro b b' h hb
    simp only [List.foldlM_nil] at h
    injection h with h
    subst h
    exact hb
  | cons a rest ih =>
    intro b b' h hb
    rw [List.foldlM_cons] at h
    obtain ⟨b1, hb1, h⟩ := Option.bind_eq_some.mp h
    exact ih b1 b' h (hf b a b1 hb hb1)

/-- The output half of attach appends no index-state write. -/
theorem attach_out_neutral (bn txh : Nat) (reg : List Nat) (acc : List BatchOp × Buffer)
    (p : Nat × CellOutput) (hacc : ∀ op ∈ acc.1, op.isStateOp = false) :
    ∀ op ∈ (attach_out bn txh reg acc p).1, op.isStateOp = false := by
  intro op hop
  rw [attach_out] at hop
  by_cases hc : p.2.lock_hash ∈ reg
  · rw [if_pos hc] at hop
    rcases List.mem_append.mp hop with hh | hh
    · exact hacc op hh
    · simp only [List.mem_cons, List.not_mem_nil, or_false] at hh
      rcases hh with rfl | rfl | rfl <;> rfl
  · rw [if_neg hc] at hop
    exact hacc op hop

/-- The input half of attach appends no index-state write. -/
theorem attach_in_neutral (db : WalletState) (bn txh : Nat) (reg : List Nat)
    (acc : List BatchOp × Buffer) (p : Nat × CellOutPoint)
    (hacc : ∀ op ∈ acc.1, op.isStateOp = false) :
    ∀ op ∈ (attach_in db bn txh reg acc p).1, op.isStateOp = false := by
  intro op hop
  rw [attach_in] at hop
  split at hop
  · split at hop
    · rcases List.mem_append.mp hop with hh | hh
      · exact hacc op hh
      · simp only [List.mem_cons, List.not_mem_nil, or_false] at hh
        rcases hh with rfl | rfl | rfl <;> rfl
    · exact hacc op hop
  · exact hacc op hop

/-- One attached transaction appends no index-state write. -/
theorem attach_tx_neutral (db : WalletState) (reg : List Nat) (bn : Nat)
    (acc : List BatchOp × Buffer) (tx : STransaction)
    (hacc : ∀ op ∈ acc.1, op.isStateOp = false) :
    ∀ op ∈ (attach_tx db reg bn acc tx).1, op.isStateOp = false := by
  have hout : ∀ op ∈ (tx.outputs.enum.foldl (attach_out bn tx.hash reg) acc).1,
      op.isStateOp = false :=
    foldl_preserve (P := fun a => ∀ op ∈ a.1, op.isStateOp = false) _
      (fun b a hb => attach_out_neutral bn tx.hash reg b a hb) _ acc hacc
  intro op hop
  cases hcb : tx.is_cellbase with
  | true =>
    simp only [attach_tx, hcb, if_true] at hop
    exact hout op hop
  | false =>
    simp only [attach_tx, hcb, Bool.false_eq_true, if_false] at hop
    exact foldl_preserve (P := fun a => ∀ op ∈ a.1, op.isStateOp = false) _
      (fun b a hb => attach_in_neutral db bn tx.hash reg b a hb) _ _ hout op hop

/-- One attached block appends no index-state write. -/
theorem attach_block_neutral (db : WalletState) (reg : List Nat)
    (acc : List BatchOp × Buffer) (b : SBlock)
    (hacc : ∀ op ∈ acc.1, op.isStateOp = false) :
    ∀ op ∈ (attach_block db reg acc b).1, op.isStateOp = false :=
  foldl_preserve (P := fun a => ∀ op ∈ a.1, op.isStateOp = false) _
    (fun a tx ha => attach_tx_neutral db reg b.number a tx ha) _ acc hacc

/-- The forward attach phase of the resync produces no index-state write. -/
theorem sync_attach_range_neutral (c : ChainDB) (db : WalletState) (keys : List Nat)
    (lo n : Nat) (ar : List BatchOp × Buffer)
    (h : sync_attach_range c db keys lo n = some ar) :
    ∀ op ∈ ar.1, op.isStateOp = false := by
  refine foldlM_option_preserve (P := fun a => ∀ op ∈ a.1, op.isStateOp = false) _
    ?_ _ _ _ h ?_
  · intro b a b' hb hf
    obtain ⟨hh, hh1, hf⟩ := Option.bind_eq_some.mp hf
    obtain ⟨bb, hb1, hf⟩ := Option.bind_eq_some.mp hf
    injection hf with hf
    subst hf
    exact attach_block_neutral db keys b bb hb
  · intro op hop
    cases hop

/-- C6: whenever `sync_index_states` returns, every registered lock
fingerprint's stored `LOCK_HASH_INDEX_STATE` checkpoint equals the current tip
`(tip.number, tip.hash)`: locks whose checkpoint sits off the canonical index
were first rolled back by detaching to a canonical block, then every
registered lock was attached forward from the minimum checkpoint to the tip
and every state row was rewritten to the tip. -/
theorem sync_index_states_checkpoints_tip (c : ChainDB) (fuel : Nat)
    (db db' : WalletState) (h : sync_index_states c fuel db = some db') :
    ∀ k st, lookupState db'.index_state k = some st →
      st = ⟨c.tip_number, c.tip_hash⟩ := by
  intro k st hl
  rw [sync_index_states] at h
  by_cases hemp : db.index_state.isEmpty = true
  · rw [if_pos hemp] at h
    injection h with h
    subst h
    cases hdb : db.index_state with
    | nil => rw [hdb] at hl; exact Option.noConfusion hl
    | cons p tl => rw [hdb] at hemp; exact absurd hemp (by simp)
  · rw [if_neg hemp] at h
    obtain ⟨db2, hdb2, h⟩ := Option.bind_eq_some.mp h
    obtain ⟨minBn, hminBn, h⟩ := Option.bind_eq_some.mp h
    obtain ⟨ar, har, h⟩ := Option.bind_eq_some.mp h
    injection h with h
    subst h
    rw [commitBatch_append, commit_putState_map,
      index_state_commitBatch_neutral ar.1 db2
        (sync_attach_range_neutral c db2 _ _ _ ar har)] at hl
    by_cases hk : k ∈ db2.index_state.map (fun p => p.1)
    · rw [lookupState_foldl_insert_mem _ _ _ _ hk] at hl
      injection hl with hl
      exact hl.symm
    · rw [lookupState_foldl_insert_not_mem _ _ _ _ hk] at hl
      exact absurd (lookupState_mem_keys db2.index_state k st hl) hk

/-- Witness for the resync theorem: the lock checkpointed on the dead fork
block 99 ends at the tip `(2, 102)`. -/
theorem sync_index_states_checkpoints_tip_witness :
    sync_index_states c6chain 5 c6db = some c6res ∧
    lookupState c6res.index_state 7 = some ⟨2, 102⟩ ∧
    (⟨2, 102⟩ : LockHashIndexState) = ⟨c6chain.tip_number, c6chain.tip_hash⟩ :=
  ⟨rfl, rfl,
   sync_index_states_checkpoints_tip c6chain 5 c6db c6res rfl 7 ⟨2, 102⟩ rfl⟩
